import Mathlib

/-!
Shallow embedding of `gtsam/hybrid/HybridSmoother.cpp` (the incremental
hybrid smoother: ordering construction, conditional carry-forward,
update, and MPE optimization), together with theorems settling the
specification claims about it.

Variable keys are modelled as `Nat`.  A `KeySet` (`std::set<Key>`) is
modelled as a sorted duplicate-free `List Nat` built by `keySetOf`;
plain key collections are `List Nat`.  External GTSAM primitives that
are not part of the repository slice (sequential elimination, Bayes-net
pruning, `mpe`, `choose`, Gaussian back-substitution) are taken as
function parameters, and `Ordering::ColamdConstrainedLast` is modelled
from the spec.
-/

namespace GtsamHybrid

/-- Boolean membership of a key in a key list (models `set::find != end` /
`KeySet::exists`). -/
def keyMem (k : Nat) (s : List Nat) : Bool :=
  s.any (fun x => x == k)

/-- Insert a key into a sorted duplicate-free list, keeping it sorted and
duplicate-free (models `std::set` insertion). -/
def sortedInsert (k : Nat) : List Nat → List Nat
  | [] => [k]
  | x :: xs =>
    if k < x then k :: x :: xs
    else if k = x then x :: xs
    else x :: sortedInsert k xs

/-- The key set of a list of keys: sorted and duplicate-free, modelling the
iteration order of a `std::set<Key>`. -/
def keySetOf (l : List Nat) : List Nat :=
  l.foldl (fun acc k => sortedInsert k acc) []

/-- Modelled from the spec: `DiscreteValues::insert(other)` merges the entries
of `other` into the map, never overwriting or removing an existing key. -/
def mapInsert (m other : List (Nat × Nat)) : List (Nat × Nat) :=
  m ++ other.filter (fun kv => !(m.any (fun kv2 => kv2.1 == kv.1)))

/-- The key view of a factor graph, which is all `getOrdering` needs:
the set of all variable keys and the subset of discrete keys. -/
structure GraphKeys where
  allKeys : List Nat
  discreteKeys : List Nat
deriving DecidableEq, Repr

/-- The `lastKeys` vector built inside `HybridSmoother::getOrdering`:
continuous keep-last keys first (keep-last keys that are discrete are
filtered out), then all discrete keys. -/
def lastKeysOf (g : GraphKeys) (lastKeysToEliminate : List Nat) : List Nat :=
  lastKeysToEliminate.filter (fun k => !(keyMem k g.discreteKeys)) ++ g.discreteKeys

/-- Modelled from the spec: `Ordering::ColamdConstrainedLast(factors, lastKeys,
true)` is external to the repository slice.  Per the spec it returns a total
order over the graph keys in which the constrained keys appear exactly last,
in the given order; the placement of the unconstrained keys (the constrained
minimum-degree heuristic) is abstracted as their original relative order. -/
def colamdConstrainedLast (g : GraphKeys) (lastKeys : List Nat) : List Nat :=
  g.allKeys.filter (fun k => !(keyMem k lastKeys)) ++ lastKeys

/-- `HybridSmoother::getOrdering`. -/
def getOrdering (g : GraphKeys) (lastKeysToEliminate : List Nat) : List Nat :=
  colamdConstrainedLast g (lastKeysOf g lastKeysToEliminate)

/-- A hybrid conditional, reduced to the key structure the smoother code
inspects: its frontal keys, its parent keys, and its discrete keys. -/
structure HybridConditional where
  frontals : List Nat
  parents : List Nat
  discreteKeys : List Nat
deriving DecidableEq, Repr

/-- Whether any frontal key of the conditional is in the involved set
(the `involved` lambda applied over `conditional->frontals()`). -/
def frontalInvolved (involvedKeys : List Nat) (c : HybridConditional) : Bool :=
  c.frontals.any (fun k => keyMem k involvedKeys)

/-- One step of the first loop of `addConditionals`: if a frontal of the
conditional is involved, add the conditional's parent keys to the involved
set. -/
def involvedStep (involvedKeys : List Nat) (c : HybridConditional) : List Nat :=
  if frontalInvolved involvedKeys c then involvedKeys ++ c.parents
  else involvedKeys

/-- The first loop of `addConditionals`: a single forward pass over the
Bayes net conditionals, growing the involved key set. -/
def collectInvolved (involvedKeys : List Nat) (net : List HybridConditional) :
    List Nat :=
  net.foldl involvedStep involvedKeys

/-- The involved key set computed by `addConditionals`, starting from the
keys of the new factors. -/
def involvedKeysOf (newFactorKeys : List Nat) (net : List HybridConditional) :
    List Nat :=
  collectInvolved newFactorKeys net

/-- The second loop of `addConditionals`: walk the original net; every
conditional with an involved frontal is appended to `newConditionals` and
its first occurrence erased from the remainder copy. -/
def pullPass (net : List HybridConditional) (involvedKeys : List Nat)
    (remainder : List HybridConditional) :
    List HybridConditional × List HybridConditional :=
  match net with
  | [] => ([], remainder)
  | c :: rest =>
    if frontalInvolved involvedKeys c then
      let r := pullPass rest involvedKeys (remainder.erase c)
      (c :: r.1, r.2)
    else
      pullPass rest involvedKeys remainder

/-- `HybridSmoother::addConditionals`, reduced to its key-level behaviour:
given the keys of the new factors and the current posterior Bayes net,
return the conditionals pulled into the augmented graph and the remainder
posterior.  (The returned graph in C++ is `newFactors` followed by the
pulled conditionals; only the pulled part is represented here.) -/
def addConditionals (newFactorKeys : List Nat) (net : List HybridConditional) :
    List HybridConditional × List HybridConditional :=
  if net.isEmpty then ([], net)
  else pullPass net (involvedKeysOf newFactorKeys net) net

/-- The key view of an incoming `HybridGaussianFactorGraph` of new factors:
`keys()` and `discreteKeySet()`. -/
structure HybridFactorGraphData where
  keys : List Nat
  discreteKeys : List Nat
deriving DecidableEq, Repr

/-- All keys of a conditional, frontals and parents. -/
def condKeys (c : HybridConditional) : List Nat :=
  c.frontals ++ c.parents

/-- The key view of the updated graph handed to `getOrdering` inside
`update`: the new factors together with the pulled-forward conditionals. -/
def updatedGraphKeys (newFactors : HybridFactorGraphData)
    (pulled : List HybridConditional) : GraphKeys :=
  { allKeys := keySetOf (newFactors.keys ++ (pulled.map condKeys).flatten)
    discreteKeys :=
      keySetOf (newFactors.discreteKeys ++ (pulled.map (·.discreteKeys)).flatten) }

/-- The elimination order `update` uses: the given ordering if provided,
otherwise `getOrdering` on the updated graph with the empty
`continuousKeysToInclude` set (Scheme 1 in the source). -/
def updateOrderingOf (newFactors : HybridFactorGraphData)
    (pulled : List HybridConditional) (givenOrdering : Option (List Nat)) :
    List Nat :=
  match givenOrdering with
  | some o => o
  | none => getOrdering (updatedGraphKeys newFactors pulled) []

/-- The persistent state of a `HybridSmoother`: the posterior Bayes net
`hybridBayesNet_`, the fixed discrete values `fixedValues_`, and the
marginal pruning threshold `marginalThreshold_` (an opaque scalar). -/
structure SmootherState where
  hybridBayesNet : List HybridConditional
  fixedValues : List (Nat × Nat)
  marginalThreshold : Int
deriving DecidableEq, Repr

/-- The externally supplied primitives the smoother calls, per the spec
assumed correct and deterministic: sequential elimination (fallible),
Bayes-net pruning, MPE extraction, branch selection (`choose`, where
`none` models a pruned/null branch), and Gaussian back-substitution. -/
structure ExternalPrims where
  elim : List Nat → HybridFactorGraphData → List HybridConditional →
    Except String (List HybridConditional)
  pruneFn : Nat → Int → List HybridConditional →
    List HybridConditional × List (Nat × Nat)
  mpe : List HybridConditional → List (Nat × Nat)
  choose : List HybridConditional → List (Nat × Nat) → List (Option Nat)
  gbnOptimize : List Nat → List (Nat × Int)
deriving Inhabited

/-- The observable outcome of an `update` call: the state of the smoother
when the call returns or when an exception escapes it, and the escaped
error if any. -/
structure UpdateResult where
  state : SmootherState
  error : Option String
deriving DecidableEq, Repr

/-- `HybridSmoother::update`.  Mirrors the mutation order of the source:
`hybridBayesNet_` is assigned the remainder of `addConditionals` before
elimination runs; on elimination failure the exception escapes with the
state at that point; pruning runs only when `maxNrLeaves` is given, and
its newly fixed values are merged into `fixedValues_`; finally the
fragment is appended to the posterior. -/
def update (P : ExternalPrims) (s : SmootherState)
    (newFactors : HybridFactorGraphData) (maxNrLeaves : Option Nat)
    (givenOrdering : Option (List Nat)) : UpdateResult :=
  let pr := addConditionals newFactors.keys s.hybridBayesNet
  let pulled := pr.1
  -- line 66: `std::tie(updatedGraph, hybridBayesNet_) = addConditionals(...)`
  let s1 : SmootherState := { s with hybridBayesNet := pr.2 }
  let ordering := updateOrderingOf newFactors pulled givenOrdering
  match P.elim ordering newFactors pulled with
  | Except.error e => { state := s1, error := some e }
  | Except.ok bayesNetFragment =>
    match maxNrLeaves with
    | some m =>
      let pf := P.pruneFn m s.marginalThreshold bayesNetFragment
      { state :=
          { s1 with
            hybridBayesNet := s1.hybridBayesNet ++ pf.1
            fixedValues := mapInsert s1.fixedValues pf.2 }
        error := none }
    | none =>
      { state := { s1 with hybridBayesNet := s1.hybridBayesNet ++ bayesNetFragment }
        error := none }

/-- Dereference every entry of the collapsed Gaussian Bayes net; `none`
models the crash of `GaussianBayesNet::optimize` on a null conditional. -/
def derefAll : List (Option Nat) → Option (List Nat)
  | [] => some []
  | none :: _ => none
  | some c :: rest => (derefAll rest).map (c :: ·)

/-- `HybridSmoother::optimize` (a const method): computes the MPE, merges
the fixed values into it, collapses the posterior with `choose`, runs
Gaussian back-substitution, and checks the collapsed net for null
entries, throwing if any is found.  The back-substitution itself faults
on a null entry (modelled by `derefAll` returning `none`), so either way
a null branch yields an error, never a returned value. -/
def optimize (P : ExternalPrims) (s : SmootherState) :
    Except String (List (Nat × Int) × List (Nat × Nat)) :=
  let mpeVals := mapInsert (P.mpe s.hybridBayesNet) s.fixedValues
  let gbn := P.choose s.hybridBayesNet mpeVals
  match derefAll gbn with
  | none => Except.error "null conditional dereferenced in GaussianBayesNet optimize"
  | some conds =>
    let continuous := P.gbnOptimize conds
    if gbn.any (fun c => c.isNone) then
      Except.error "At least one nullptr factor in hybridBayesNet_"
    else
      Except.ok (continuous, mpeVals)

/-- A call into the smoother: an `update` with its arguments, or an
`optimize`. -/
inductive SmootherOp where
  | update (newFactors : HybridFactorGraphData) (maxNrLeaves : Option Nat)
      (givenOrdering : Option (List Nat))
  | optimize
deriving DecidableEq, Repr

/-- The observable output of one smoother call. -/
inductive OpOutput where
  | updated (err : Option String)
  | optimized (res : Except String (List (Nat × Int) × List (Nat × Nat)))
deriving Repr

/-- Run one smoother call: `update` mutates the state; `optimize` is a
const method and leaves the state unchanged. -/
def runOp (P : ExternalPrims) (s : SmootherState) :
    SmootherOp → SmootherState × OpOutput
  | SmootherOp.update nf mx ord =>
    let r := update P s nf mx ord
    (r.state, OpOutput.updated r.error)
  | SmootherOp.optimize => (s, OpOutput.optimized (optimize P s))

/-- Run a sequence of smoother calls, returning the final state. -/
def runOps (P : ExternalPrims) (s : SmootherState) :
    List SmootherOp → SmootherState
  | [] => s
  | op :: rest => runOps P (runOp P s op).1 rest

/-! ### Basic lemmas -/

@[simp]
theorem keyMem_iff {k : Nat} {s : List Nat} : keyMem k s = true ↔ k ∈ s := by
  unfold keyMem
  rw [List.any_eq_true]
  constructor
  · rintro ⟨x, hx, he⟩
    rw [beq_iff_eq] at he
    exact he ▸ hx
  · intro h
    exact ⟨k, h, by simp⟩

theorem keyMem_eq_false {k : Nat} {s : List Nat} : keyMem k s = false ↔ k ∉ s := by
  constructor
  · intro h hmem
    rw [keyMem_iff.2 hmem] at h
    cases h
  · intro h
    cases hh : keyMem k s
    · rfl
    · exact absurd (keyMem_iff.1 hh) h

theorem keyMem_bnot_iff {k : Nat} {s : List Nat} : (!(keyMem k s)) = true ↔ k ∉ s := by
  cases hh : keyMem k s
  · simp [keyMem_eq_false.1 hh]
  · simp [keyMem_iff.1 hh]

theorem frontalInvolved_iff {inv : List Nat} {c : HybridConditional} :
    frontalInvolved inv c = true ↔ ∃ k ∈ c.frontals, k ∈ inv := by
  simp [frontalInvolved, List.any_eq_true]

theorem involvedStep_sub {inv : List Nat} {c : HybridConditional} {k : Nat}
    (h : k ∈ inv) : k ∈ involvedStep inv c := by
  unfold involvedStep
  split
  · exact List.mem_append_left _ h
  · exact h

@[simp]
theorem collectInvolved_nil (inv : List Nat) : collectInvolved inv [] = inv := rfl

@[simp]
theorem collectInvolved_cons (inv : List Nat) (c : HybridConditional)
    (rest : List HybridConditional) :
    collectInvolved inv (c :: rest) = collectInvolved (involvedStep inv c) rest := rfl

theorem collectInvolved_sub {k : Nat} :
    ∀ (net : List HybridConditional) (inv : List Nat),
      k ∈ inv → k ∈ collectInvolved inv net := by
  intro net
  induction net with
  | nil => intro inv h; simpa using h
  | cons c rest ih =>
    intro inv h
    simpa using ih (involvedStep inv c) (involvedStep_sub h)

theorem collectInvolved_origin {k : Nat} :
    ∀ (net : List HybridConditional) (inv : List Nat),
      k ∈ collectInvolved inv net → k ∈ inv ∨ ∃ c ∈ net, k ∈ c.parents := by
  intro net
  induction net with
  | nil => intro inv h; exact Or.inl (by simpa using h)
  | cons c rest ih =>
    intro inv h
    rcases ih (involvedStep inv c) (by simpa using h) with h1 | ⟨c', hc', hk⟩
    · unfold involvedStep at h1
      split at h1
      · rcases List.mem_append.1 h1 with h2 | h2
        · exact Or.inl h2
        · exact Or.inr ⟨c, List.mem_cons_self _ _, h2⟩
      · exact Or.inl h1
    · exact Or.inr ⟨c', List.mem_cons_of_mem _ hc', hk⟩

theorem pullPass_fst (inv : List Nat) :
    ∀ (net r : List HybridConditional),
      (pullPass net inv r).1 = net.filter (fun c => frontalInvolved inv c) := by
  intro net
  induction net with
  | nil => intro r; rfl
  | cons c rest ih =>
    intro r
    unfold pullPass
    by_cases h : frontalInvolved inv c
    · simp [h, ih]
    · simp [h, ih]

theorem pullPass_snd (inv : List Nat) :
    ∀ (net r : List HybridConditional),
      (pullPass net inv r).2 =
        net.foldl
          (fun acc c => if frontalInvolved inv c then acc.erase c else acc) r := by
  intro net
  induction net with
  | nil => intro r; rfl
  | cons c rest ih =>
    intro r
    unfold pullPass
    by_cases h : frontalInvolved inv c
    · simp [h, ih]
    · simp [h, ih]

theorem foldl_erase_cons {α : Type} [DecidableEq α] (p : α → Bool) :
    ∀ (l : List α) (c : α) (acc : List α), c ∉ l →
      List.foldl (fun acc d => if p d then acc.erase d else acc) (c :: acc) l =
        c :: List.foldl (fun acc d => if p d then acc.erase d else acc) acc l := by
  intro l
  induction l with
  | nil => intro c acc _; rfl
  | cons d rest ih =>
    intro c acc hc
    have hdc : d ≠ c := fun e => hc (e ▸ List.mem_cons_self _ _)
    have hne : c ≠ d := fun e => hdc e.symm
    have hcr : c ∉ rest := fun h => hc (List.mem_cons_of_mem _ h)
    simp only [List.foldl_cons]
    have : (if p d then (c :: acc).erase d else c :: acc) =
        c :: (if p d then acc.erase d else acc) := by
      by_cases h : p d
      · simp [h, List.erase_cons, hne]
      · simp [h]
    rw [this, ih _ _ hcr]

theorem foldl_erase_self {α : Type} [DecidableEq α] (p : α → Bool) :
    ∀ (r : List α), r.Nodup →
      List.foldl (fun acc d => if p d then acc.erase d else acc) r r =
        r.filter (fun d => !p d) := by
  intro r
  induction r with
  | nil => intro _; rfl
  | cons c rest ih =>
    intro hnd
    have hc : c ∉ rest := (List.nodup_cons.1 hnd).1
    have hrest : rest.Nodup := (List.nodup_cons.1 hnd).2
    simp only [List.foldl_cons]
    by_cases h : p c
    · simp only [h, if_pos, List.erase_cons_head]
      rw [ih hrest]
      simp [h]
    · simp only [h, if_neg, Bool.false_eq_true, not_false_iff]
      rw [foldl_erase_cons p rest c rest hc, ih hrest]
      simp [h]

theorem addConditionals_fst (newFactorKeys : List Nat)
    (net : List HybridConditional) :
    (addConditionals newFactorKeys net).1 =
      net.filter (fun c => frontalInvolved (involvedKeysOf newFactorKeys net) c) := by
  cases net with
  | nil => rfl
  | cons c rest =>
    unfold addConditionals
    simp only [List.isEmpty_cons, Bool.false_eq_true, if_neg, not_false_iff]
    exact pullPass_fst _ _ _

theorem addConditionals_snd (newFactorKeys : List Nat)
    (net : List HybridConditional) (hnd : net.Nodup) :
    (addConditionals newFactorKeys net).2 =
      net.filter (fun c => !frontalInvolved (involvedKeysOf newFactorKeys net) c) := by
  cases net with
  | nil => rfl
  | cons c rest =>
    unfold addConditionals
    simp only [List.isEmpty_cons, Bool.false_eq_true, if_neg, not_false_iff]
    rw [pullPass_snd]
    exact foldl_erase_self _ _ hnd

/-! ### Transitive closure of the involved key set -/

/-- The elimination-order invariant a posterior Bayes net maintains: a
parent key of a conditional is never a frontal key of that conditional
nor of an earlier conditional in the sequence (parents are eliminated
later, hence appear as frontals only further down the list). -/
def ParentsAfter (net : List HybridConditional) : Prop :=
  (∀ c ∈ net, ∀ p ∈ c.parents, p ∉ c.frontals) ∧
  net.Pairwise (fun e l => ∀ p ∈ l.parents, p ∉ e.frontals)

theorem parentsAfter_cons {c : HybridConditional} {rest : List HybridConditional}
    (h : ParentsAfter (c :: rest)) :
    ParentsAfter rest ∧ (∀ l ∈ rest, ∀ p ∈ l.parents, p ∉ c.frontals) := by
  rcases h with ⟨hself, hpw⟩
  rcases List.pairwise_cons.1 hpw with ⟨hhead, htail⟩
  exact ⟨⟨fun d hd => hself d (List.mem_cons_of_mem _ hd), htail⟩, hhead⟩

/-- Under the elimination-order invariant, the single forward pass of
`collectInvolved` computes a set closed under parent addition: whenever a
conditional's frontals meet the final involved set, all of its parents
are in the final involved set as well. -/
theorem collectInvolved_closed :
    ∀ (net : List HybridConditional) (inv : List Nat), ParentsAfter net →
      ∀ c ∈ net, (∃ k ∈ c.frontals, k ∈ collectInvolved inv net) →
        ∀ p ∈ c.parents, p ∈ collectInvolved inv net := by
  intro net
  induction net with
  | nil => intro inv _ c hc; cases hc
  | cons c0 rest ih =>
    intro inv hPA d hd hfront p hp
    rcases parentsAfter_cons hPA with ⟨hPArest, hhead⟩
    rcases List.mem_cons.1 hd with rfl | hdrest
    · -- the pulled conditional is the head of the list
      rcases hfront with ⟨k, hkf, hkinv⟩
      rw [collectInvolved_cons] at hkinv
      rw [collectInvolved_cons]
      rcases collectInvolved_origin rest (involvedStep inv d) hkinv with
        h1 | ⟨c', hc', hk'⟩
      · -- k was already involved when the head was scanned
        have hkin : k ∈ inv := by
          unfold involvedStep at h1
          split at h1
          · rcases List.mem_append.1 h1 with h2 | h2
            · exact h2
            · exact absurd hkf (hPA.1 d (List.mem_cons_self _ _) k h2)
          · exact h1
        have hguard : frontalInvolved inv d = true :=
          frontalInvolved_iff.2 ⟨k, hkf, keyMem_iff.1 (keyMem_iff.2 hkin)⟩
        have hstep : involvedStep inv d = inv ++ d.parents := by
          unfold involvedStep
          rw [if_pos hguard]
        apply collectInvolved_sub
        rw [hstep]
        exact List.mem_append_right _ hp
      · -- k is a parent key added by a later conditional: impossible,
        -- it would be a frontal of an earlier conditional
        exact absurd hkf (hhead c' hc' k hk')
    · -- the pulled conditional is in the tail: induction hypothesis
      rw [collectInvolved_cons] at hfront ⊢
      exact ih (involvedStep inv c0) hPArest d hdrest hfront p hp

/-! ### Claim C2: transitive closure of the carry-forward key set -/

/-- C2 (counterexample): on a posterior whose conditionals are not in
elimination order (the conditional on key 2 precedes the one that has 2
as a parent), the single forward pass of `addConditionals` is not a
transitive closure: the conditional `P(1 | 2)` is pulled into the
augmented graph, yet its parent key 2 is never added to the involved
set, and the conditional owning key 2 is left behind in the remainder. -/
theorem addConditionals_not_transitive :
    (⟨[1], [2], []⟩ : HybridConditional) ∈
        (addConditionals [0]
          [⟨[2], [], []⟩, ⟨[1], [2], []⟩, ⟨[0], [1], []⟩]).1 ∧
    (2 : Nat) ∉ involvedKeysOf [0]
        [⟨[2], [], []⟩, ⟨[1], [2], []⟩, ⟨[0], [1], []⟩] ∧
    (⟨[2], [], []⟩ : HybridConditional) ∉
        (addConditionals [0]
          [⟨[2], [], []⟩, ⟨[1], [2], []⟩, ⟨[0], [1], []⟩]).1 ∧
    (⟨[2], [], []⟩ : HybridConditional) ∈
        (addConditionals [0]
          [⟨[2], [], []⟩, ⟨[1], [2], []⟩, ⟨[0], [1], []⟩]).2 := by
  decide

/-- C2 (amended): whenever the posterior satisfies the elimination-order
invariant `ParentsAfter` (parents appear as frontals only later in the
sequence, which is how the smoother stores its posterior), the involved
key set computed by `addConditionals` is transitively closed over
dependency chains of any depth: every pulled conditional has all of its
parent keys in the involved set, and every conditional whose frontal
set intersects the involved set is pulled into the augmented graph and
so out of the remainder. -/
theorem addConditionals_transitively_closed (newFactorKeys : List Nat)
    (net : List HybridConditional) (hPA : ParentsAfter net) :
    (∀ c ∈ (addConditionals newFactorKeys net).1, ∀ p ∈ c.parents,
        p ∈ involvedKeysOf newFactorKeys net) ∧
    (∀ c ∈ net,
        (∃ k ∈ c.frontals, k ∈ involvedKeysOf newFactorKeys net) →
        c ∈ (addConditionals newFactorKeys net).1) := by
  constructor
  · intro c hc p hp
    rw [addConditionals_fst] at hc
    rcases List.mem_filter.1 hc with ⟨hcnet, hcinv⟩
    exact collectInvolved_closed net newFactorKeys hPA c hcnet
      (frontalInvolved_iff.1 hcinv) p hp
  · intro c hc hfront
    rw [addConditionals_fst]
    exact List.mem_filter.2 ⟨hc, frontalInvolved_iff.2 hfront⟩

/-- C2 (witness): a three-deep dependency chain stored in elimination
order; the theorem applies and indeed all three conditionals are pulled. -/
theorem addConditionals_transitively_closed_w :
    ParentsAfter [⟨[0], [1], []⟩, ⟨[1], [2], []⟩, ⟨[2], [], []⟩] ∧
    (∀ c ∈ (addConditionals [0]
        [⟨[0], [1], []⟩, ⟨[1], [2], []⟩, ⟨[2], [], []⟩]).1,
      ∀ p ∈ c.parents,
        p ∈ involvedKeysOf [0]
          [⟨[0], [1], []⟩, ⟨[1], [2], []⟩, ⟨[2], [], []⟩]) :=
  ⟨by constructor <;> decide,
   (addConditionals_transitively_closed [0]
      [⟨[0], [1], []⟩, ⟨[1], [2], []⟩, ⟨[2], [], []⟩]
      (by constructor <;> decide)).1⟩

/-! ### Claim C5: exactness of the conditional pull -/

/-- C5: for a duplicate-free posterior, every conditional whose frontal
set meets the new factor keys is pulled into the augmented graph, each
pulled conditional occurs exactly once there and is absent from the
remainder, and the remainder is exactly the original posterior minus the
pulled conditionals. -/
theorem addConditionals_pull_exact (newFactorKeys : List Nat)
    (net : List HybridConditional) (hnd : net.Nodup) :
    (∀ c ∈ net, (∃ k ∈ c.frontals, k ∈ newFactorKeys) →
        c ∈ (addConditionals newFactorKeys net).1) ∧
    (∀ c ∈ (addConditionals newFactorKeys net).1,
        ((addConditionals newFactorKeys net).1).count c = 1 ∧
        c ∉ (addConditionals newFactorKeys net).2) ∧
    (addConditionals newFactorKeys net).2 =
      net.filter (fun c => decide (c ∉ (addConditionals newFactorKeys net).1)) := by
  have hfst := addConditionals_fst newFactorKeys net
  have hsnd := addConditionals_snd newFactorKeys net hnd
  refine ⟨?_, ?_, ?_⟩
  · intro c hc ⟨k, hkf, hkn⟩
    rw [hfst]
    exact List.mem_filter.2
      ⟨hc, frontalInvolved_iff.2 ⟨k, hkf, collectInvolved_sub net _ hkn⟩⟩
  · intro c hc
    constructor
    · rw [hfst] at hc ⊢
      exact List.count_eq_one_of_mem (List.Nodup.filter _ hnd) hc
    · rw [hfst] at hc
      rw [hsnd]
      intro hmem
      rcases List.mem_filter.1 hc with ⟨_, hinv⟩
      rcases List.mem_filter.1 hmem with ⟨_, hninv⟩
      rw [hinv] at hninv
      exact absurd hninv (by simp)
  · rw [hsnd]
    refine List.filter_congr ?_
    intro c hc
    rcases h : frontalInvolved (involvedKeysOf newFactorKeys net) c with _ | _
    · simp only [Bool.not_false, decide_eq_true_eq]
      have : c ∉ (addConditionals newFactorKeys net).1 := by
        rw [hfst]
        intro hmem
        rcases List.mem_filter.1 hmem with ⟨_, hinv⟩
        rw [h] at hinv
        exact absurd hinv (by simp)
      simp [this]
    · simp only [Bool.not_true]
      have : c ∈ (addConditionals newFactorKeys net).1 := by
        rw [hfst]
        exact List.mem_filter.2 ⟨hc, h⟩
      simp [this]

/-- C5 (witness): concrete two-conditional posterior; the conditional on
key 0 is pulled exactly once and the remainder keeps only the other. -/
theorem addConditionals_pull_exact_w :
    ([⟨[0], [], []⟩, ⟨[1], [], []⟩] : List HybridConditional).Nodup ∧
    (addConditionals [0] [⟨[0], [], []⟩, ⟨[1], [], []⟩]).2 =
      ([⟨[0], [], []⟩, ⟨[1], [], []⟩] : List HybridConditional).filter
        (fun c => decide (c ∉ (addConditionals [0]
          [⟨[0], [], []⟩, ⟨[1], [], []⟩]).1)) :=
  ⟨by decide,
   (addConditionals_pull_exact [0] [⟨[0], [], []⟩, ⟨[1], [], []⟩]
      (by decide)).2.2⟩

/-! ### Claims C4 and C9: structure of the elimination ordering -/

/-- C4: for a graph whose discrete keys and keep-last keys are drawn from
its key set (all duplicate-free), the ordering returned by `getOrdering`
is a permutation of the graph's keys of the form
`front ++ (keep-last continuous block) ++ (discrete block)`, where the
front contains no discrete key and no keep-last key: every discrete key
comes after every continuous key, and the continuous keep-last keys sit
immediately before the discrete block. -/
theorem getOrdering_blocks (g : GraphKeys) (keepLast : List Nat)
    (hDsub : ∀ k ∈ g.discreteKeys, k ∈ g.allKeys)
    (hKsub : ∀ k ∈ keepLast, k ∈ g.allKeys)
    (hndA : g.allKeys.Nodup) (hndD : g.discreteKeys.Nodup)
    (hndK : keepLast.Nodup) :
    ∃ front : List Nat,
      getOrdering g keepLast =
        front ++ keepLast.filter (fun k => !(keyMem k g.discreteKeys)) ++
          g.discreteKeys ∧
      (∀ k ∈ front, k ∉ g.discreteKeys ∧ k ∉ keepLast) ∧
      List.Perm (getOrdering g keepLast) g.allKeys := by
  refine ⟨g.allKeys.filter (fun k => !(keyMem k (lastKeysOf g keepLast))), ?_, ?_, ?_⟩
  · unfold getOrdering colamdConstrainedLast lastKeysOf
    rw [List.append_assoc]
  · intro k hk
    rcases List.mem_filter.1 hk with ⟨_, hnotlast⟩
    have hklast : k ∉ lastKeysOf g keepLast := keyMem_bnot_iff.1 hnotlast
    constructor
    · intro hd
      exact hklast (List.mem_append_right _ hd)
    · intro hkeep
      by_cases hd : k ∈ g.discreteKeys
      · exact hklast (List.mem_append_right _ hd)
      · refine hklast (List.mem_append_left _ ?_)
        exact List.mem_filter.2 ⟨hkeep, keyMem_bnot_iff.2 hd⟩
  · -- the ordering is a permutation of the graph keys
    have hndLast : (lastKeysOf g keepLast).Nodup := by
      refine List.Nodup.append (List.Nodup.filter _ hndK) hndD ?_
      intro k hk hkd
      rcases List.mem_filter.1 hk with ⟨_, hnd⟩
      exact keyMem_bnot_iff.1 hnd hkd
    have hLsub : ∀ k ∈ lastKeysOf g keepLast, k ∈ g.allKeys := by
      intro k hk
      rcases List.mem_append.1 hk with hk | hk
      · exact hKsub k (List.mem_filter.1 hk).1
      · exact hDsub k hk
    have h1 : List.Perm
        (g.allKeys.filter (fun k => !(keyMem k (lastKeysOf g keepLast))) ++
          g.allKeys.filter (fun k => keyMem k (lastKeysOf g keepLast)))
        g.allKeys := by
      refine List.Perm.trans List.perm_append_comm ?_
      exact List.filter_append_perm _ g.allKeys
    have h2 : List.Perm (g.allKeys.filter (fun k => keyMem k (lastKeysOf g keepLast)))
        (lastKeysOf g keepLast) := by
      refine (List.perm_ext_iff_of_nodup (List.Nodup.filter _ hndA) hndLast).2 ?_
      intro k
      constructor
      · intro hk
        exact keyMem_iff.1 (List.mem_filter.1 hk).2
      · intro hk
        exact List.mem_filter.2 ⟨hLsub k hk, keyMem_iff.2 hk⟩
    refine List.Perm.trans ?_ h1
    unfold getOrdering colamdConstrainedLast
    exact List.Perm.append_left _ h2.symm

/-- C4 (witness): concrete graph with keys 0,1,2, key 2 discrete, key 1
kept last; the blocks are `[0] ++ [1] ++ [2]`. -/
theorem getOrdering_blocks_w :
    ∃ front : List Nat,
      getOrdering ⟨[0, 1, 2], [2]⟩ [1] =
        front ++ [1].filter (fun k => !(keyMem k [2])) ++ [2] ∧
      (∀ k ∈ front, k ∉ ([2] : List Nat) ∧ k ∉ ([1] : List Nat)) ∧
      List.Perm (getOrdering ⟨[0, 1, 2], [2]⟩ [1]) [0, 1, 2] :=
  getOrdering_blocks ⟨[0, 1, 2], [2]⟩ [1] (by decide) (by decide)
    (by decide) (by decide) (by decide)

/-- C9: a key in both the keep-last set and the graph's discrete key set
is filtered out of the continuous keep-last block and appears exactly
once, in the trailing discrete block, both in the constrained-last key
vector and in the full ordering. -/
theorem getOrdering_keepLast_discrete_once (g : GraphKeys) (keepLast : List Nat)
    (k : Nat) (_hk : k ∈ keepLast) (hd : k ∈ g.discreteKeys)
    (hndD : g.discreteKeys.Nodup) :
    k ∉ keepLast.filter (fun j => !(keyMem j g.discreteKeys)) ∧
    (lastKeysOf g keepLast).count k = 1 ∧
    (getOrdering g keepLast).count k = 1 := by
  have hnotcont : k ∉ keepLast.filter (fun j => !(keyMem j g.discreteKeys)) := by
    intro hmem
    rcases List.mem_filter.1 hmem with ⟨_, hnd⟩
    exact keyMem_bnot_iff.1 hnd hd
  have hlast : (lastKeysOf g keepLast).count k = 1 := by
    unfold lastKeysOf
    rw [List.count_append, List.count_eq_zero.2 hnotcont,
      List.count_eq_one_of_mem hndD hd]
  refine ⟨hnotcont, hlast, ?_⟩
  unfold getOrdering colamdConstrainedLast
  rw [List.count_append, hlast]
  have : k ∉ g.allKeys.filter (fun j => !(keyMem j (lastKeysOf g keepLast))) := by
    intro hmem
    rcases List.mem_filter.1 hmem with ⟨_, hnl⟩
    exact keyMem_bnot_iff.1 hnl (List.mem_append_right _ hd)
  rw [List.count_eq_zero.2 this]

/-- C9 (witness): key 2 is both kept last and discrete; it occurs once in
the ordering, inside the discrete block. -/
theorem getOrdering_keepLast_discrete_once_w :
    (2 : Nat) ∉ [1, 2].filter (fun j => !(keyMem j [2])) ∧
    (lastKeysOf ⟨[0, 1, 2], [2]⟩ [1, 2]).count 2 = 1 ∧
    (getOrdering ⟨[0, 1, 2], [2]⟩ [1, 2]).count 2 = 1 :=
  getOrdering_keepLast_discrete_once ⟨[0, 1, 2], [2]⟩ [1, 2] 2
    (by decide) (by decide) (by decide)

/-! ### Claim C3: the keep-last set used by `update` -/

/-- C3 (counterexample): `update` without an explicit ordering does not
derive the keep-last set from the keys of the incoming factors: on a
posterior pulling in old key 5, the ordering it builds differs from the
one that keep-last = new-factor keys would produce. -/
theorem updateOrdering_not_from_newFactorKeys :
    updateOrderingOf ⟨[0], []⟩
        (addConditionals [0] [⟨[0], [5], []⟩]).1 none ≠
      getOrdering
        (updatedGraphKeys ⟨[0], []⟩ (addConditionals [0] [⟨[0], [5], []⟩]).1)
        (keySetOf [0]) := by
  decide

/-- C3 (amended): when no ordering is given, `update` builds the ordering
with the empty keep-last set (Scheme 1 in the source): the constrained
tail of the ordering holds exactly the discrete keys of the updated
graph, and no continuous key is constrained last. -/
theorem updateOrdering_empty_keepLast (newFactors : HybridFactorGraphData)
    (pulled : List HybridConditional) :
    updateOrderingOf newFactors pulled none =
      (updatedGraphKeys newFactors pulled).allKeys.filter
        (fun k => !(keyMem k (updatedGraphKeys newFactors pulled).discreteKeys)) ++
      (updatedGraphKeys newFactors pulled).discreteKeys := by
  unfold updateOrderingOf getOrdering colamdConstrainedLast lastKeysOf
  simp

/-! ### Claims about `update` and `optimize` as state transitions -/

/-- External primitives whose elimination always fails; used to exercise
the failure path of `update`. -/
def failPrims : ExternalPrims :=
  { elim := fun _ _ _ => Except.error "elimination failed"
    pruneFn := fun _ _ f => (f, [])
    mpe := fun _ => []
    choose := fun _ _ => []
    gbnOptimize := fun _ => [] }

/-- C1 (counterexample): with a posterior holding one conditional on key
0 and new factors touching key 0, an `update` whose elimination fails
escapes with the posterior already changed: the pulled conditional is
gone, so the persistent posterior is not left as it was before the call. -/
theorem update_not_left_unchanged_on_failure :
    (update failPrims ⟨[⟨[0], [], []⟩], [], 0⟩ ⟨[0], []⟩ none none).error.isSome
        = true ∧
    (update failPrims ⟨[⟨[0], [], []⟩], [], 0⟩ ⟨[0], []⟩ none none).state.hybridBayesNet
        ≠ [⟨[0], [], []⟩] := by
  decide

/-- C1 (amended): the new fragment is committed only after elimination
succeeds — if elimination fails, the escaping state contains no partial
fragment and no pruning effect, but the posterior equals the remainder
of `addConditionals`: it is missing exactly the conditionals pulled
forward for re-elimination, not left as it was before the call. -/
theorem update_elim_failure_state (P : ExternalPrims) (s : SmootherState)
    (nf : HybridFactorGraphData) (mx : Option Nat) (ord : Option (List Nat))
    (e : String)
    (h : P.elim (updateOrderingOf nf (addConditionals nf.keys s.hybridBayesNet).1 ord)
        nf (addConditionals nf.keys s.hybridBayesNet).1 = Except.error e) :
    update P s nf mx ord =
      { state := { s with hybridBayesNet := (addConditionals nf.keys s.hybridBayesNet).2 }
        error := some e } := by
  simp [update, h]

/-- C1 (witness): the amended theorem applied to the concrete failing run. -/
theorem update_elim_failure_state_w :
    failPrims.elim
        (updateOrderingOf ⟨[0], []⟩ (addConditionals [0] [⟨[0], [], []⟩]).1 none)
        ⟨[0], []⟩ (addConditionals [0] [⟨[0], [], []⟩]).1 =
      Except.error "elimination failed" ∧
    update failPrims ⟨[⟨[0], [], []⟩], [], 0⟩ ⟨[0], []⟩ none none =
      { state := { hybridBayesNet := (addConditionals [0] [⟨[0], [], []⟩]).2
                   fixedValues := []
                   marginalThreshold := 0 }
        error := some "elimination failed" } :=
  ⟨rfl,
   update_elim_failure_state failPrims ⟨[⟨[0], [], []⟩], [], 0⟩ ⟨[0], []⟩
     none none "elimination failed" rfl⟩

/-- C10: an `update` call without `maxNrLeaves` performs no pruning: the
persistent fixed-value map and the marginal threshold are unchanged
whether elimination succeeds or fails; of the persistent state only the
posterior Bayes net is modified. -/
theorem update_no_prune_frame (P : ExternalPrims) (s : SmootherState)
    (nf : HybridFactorGraphData) (ord : Option (List Nat)) :
    (update P s nf none ord).state.fixedValues = s.fixedValues ∧
    (update P s nf none ord).state.marginalThreshold = s.marginalThreshold := by
  cases h : P.elim (updateOrderingOf nf (addConditionals nf.keys s.hybridBayesNet).1 ord)
      nf (addConditionals nf.keys s.hybridBayesNet).1 with
  | error e => simp [update, h]
  | ok f => simp [update, h]

/-- Membership in the fixed-value map survives a `mapInsert`. -/
theorem mapInsert_mem_left {m other : List (Nat × Nat)} {kv : Nat × Nat}
    (h : kv ∈ m) : kv ∈ mapInsert m other :=
  List.mem_append_left _ h

/-- One `update` call never removes an entry of the fixed-value map. -/
theorem update_fixedValues_mono (P : ExternalPrims) (s : SmootherState)
    (nf : HybridFactorGraphData) (mx : Option Nat) (ord : Option (List Nat))
    {kv : Nat × Nat} (h : kv ∈ s.fixedValues) :
    kv ∈ (update P s nf mx ord).state.fixedValues := by
  cases he : P.elim (updateOrderingOf nf (addConditionals nf.keys s.hybridBayesNet).1 ord)
      nf (addConditionals nf.keys s.hybridBayesNet).1 with
  | error e => simpa [update, he] using h
  | ok f =>
    cases mx with
    | none => simpa [update, he] using h
    | some m =>
      simp only [update, he]
      exact mapInsert_mem_left h

/-- Running any sequence of calls never removes an entry of the
fixed-value map. -/
theorem runOps_fixedValues_mono (P : ExternalPrims) :
    ∀ (ops : List SmootherOp) (s : SmootherState) {kv : Nat × Nat},
      kv ∈ s.fixedValues → kv ∈ (runOps P s ops).fixedValues := by
  intro ops
  induction ops with
  | nil => intro s kv h; exact h
  | cons op rest ih =>
    intro s kv h
    cases op with
    | optimize => exact ih _ h
    | update nf mx ord => exact ih _ (update_fixedValues_mono P s nf mx ord h)

theorem runOps_append (P : ExternalPrims) :
    ∀ (l₁ l₂ : List SmootherOp) (s : SmootherState),
      runOps P s (l₁ ++ l₂) = runOps P (runOps P s l₁) l₂ := by
  intro l₁
  induction l₁ with
  | nil => intro l₂ s; rfl
  | cons op rest ih =>
    intro l₂ s
    exact ih l₂ (runOp P s op).1

/-- C7: fixed-value monotonicity — once a discrete key is recorded in the
persistent fixed-value map after some sequence of calls, it remains
there (with the same value) after any further sequence of `update` and
`optimize` calls: `DiscreteValues::insert` only adds missing keys and no
operation removes any. -/
theorem fixedValues_monotone (P : ExternalPrims) (s : SmootherState)
    (ops₁ ops₂ : List SmootherOp) (k v : Nat)
    (h : (k, v) ∈ (runOps P s ops₁).fixedValues) :
    (k, v) ∈ (runOps P s (ops₁ ++ ops₂)).fixedValues := by
  rw [runOps_append]
  exact runOps_fixedValues_mono P ops₂ _ h

/-- External primitives whose elimination succeeds and whose pruning
tries to fix keys 3 and 4; used to exercise the success path. -/
def okPrims : ExternalPrims :=
  { elim := fun _ _ pulled => Except.ok pulled
    pruneFn := fun _ _ f => (f, [(3, 9), (4, 2)])
    mpe := fun _ => []
    choose := fun _ _ => []
    gbnOptimize := fun _ => [] }

/-- C7 (witness): key 3 fixed to value 1 beforehand stays fixed to 1
across a pruning `update` (whose pruner even proposes a different value
for key 3) and an `optimize`. -/
theorem fixedValues_monotone_w :
    ((3, 1) ∈ (runOps okPrims ⟨[], [(3, 1)], 0⟩
        [SmootherOp.update ⟨[], []⟩ (some 1) none]).fixedValues) ∧
    ((3, 1) ∈ (runOps okPrims ⟨[], [(3, 1)], 0⟩
        ([SmootherOp.update ⟨[], []⟩ (some 1) none] ++
          [SmootherOp.optimize, SmootherOp.update ⟨[], []⟩ none none])).fixedValues) :=
  ⟨by decide,
   fixedValues_monotone okPrims ⟨[], [(3, 1)], 0⟩
     [SmootherOp.update ⟨[], []⟩ (some 1) none]
     [SmootherOp.optimize, SmootherOp.update ⟨[], []⟩ none none] 3 1 (by decide)⟩

/-- C8: `optimize` is read-only and deterministic — as a call it leaves
the smoother state unchanged, two consecutive `optimize` calls return
identical results, and splicing an `optimize` into any call sequence
does not change the final state. -/
theorem optimize_deterministic (P : ExternalPrims) (s : SmootherState)
    (ops₁ ops₂ : List SmootherOp) :
    (runOp P s SmootherOp.optimize).1 = s ∧
    (runOp P (runOp P s SmootherOp.optimize).1 SmootherOp.optimize).2 =
      (runOp P s SmootherOp.optimize).2 ∧
    runOps P s (ops₁ ++ SmootherOp.optimize :: ops₂) =
      runOps P s (ops₁ ++ ops₂) := by
  refine ⟨rfl, rfl, ?_⟩
  rw [runOps_append, runOps_append]
  rfl

theorem derefAll_eq_none {l : List (Option Nat)} (h : none ∈ l) :
    derefAll l = none := by
  induction l with
  | nil => cases h
  | cons a rest ih =>
    cases a with
    | none => rfl
    | some c =>
      have hrest : none ∈ rest := by
        rcases List.mem_cons.1 h with h1 | h1
        · cases h1
        · exact h1
      show (derefAll rest).map (c :: ·) = none
      rw [ih hrest]
      rfl

/-- C6: if the Gaussian Bayes net selected by the MPE assignment contains
a pruned/null branch, `optimize` ends in an error (the back-substitution
faults on the null conditional, and the source's explicit null check
throws before the return): it never returns a result value. -/
theorem optimize_errors_on_null_branch (P : ExternalPrims) (s : SmootherState)
    (h : none ∈ P.choose s.hybridBayesNet
        (mapInsert (P.mpe s.hybridBayesNet) s.fixedValues)) :
    ∃ e : String, optimize P s = Except.error e := by
  refine ⟨"null conditional dereferenced in GaussianBayesNet optimize", ?_⟩
  simp only [optimize]
  rw [derefAll_eq_none h]

/-- External primitives whose `choose` returns a net with a null branch. -/
def nullBranchPrims : ExternalPrims :=
  { elim := fun _ _ _ => Except.ok []
    pruneFn := fun _ _ f => (f, [])
    mpe := fun _ => []
    choose := fun _ _ => [none]
    gbnOptimize := fun _ => [] }

/-- C6 (witness): the theorem applied to a smoother whose collapsed net
is the single null branch. -/
theorem optimize_errors_on_null_branch_w :
    (none ∈ nullBranchPrims.choose ([] : List HybridConditional)
        (mapInsert (nullBranchPrims.mpe []) [])) ∧
    ∃ e : String, optimize nullBranchPrims ⟨[], [], 0⟩ = Except.error e :=
  ⟨by decide, optimize_errors_on_null_branch nullBranchPrims ⟨[], [], 0⟩ (by decide)⟩

end GtsamHybrid
